import Mathlib

/-!
Verification of the job-analyzer scripts (`job_analyzer_cli.py` and
`job_analyzer_interactive.py`).

The development shallowly embeds the two pieces of logic the scripts contain:

* the content extractor `scrape_job_posting_text` (HTTP fetch modelled as an
  outcome value, BeautifulSoup selector cascade modelled as a map from CSS
  selector strings to the text the matched element would yield, whitespace
  normalization `re.sub(r'\n\s*\n', '\n\n', t).strip()` modelled as an
  executable scanner over `List Char`, and the 15000-character truncation);
* the prompt-chain orchestrator `analyze_job_application` (the five core
  steps modelled as an oracle of remote-call outcomes, the step-results
  dictionary as an association list, and the conditional fit predicate of
  each variant as a Boolean function of the Step 5 output).

Strings are modelled as `List Char`; Python's `str.lower` is modelled by
`Char.toLower` (ASCII case only, which is all the fixed marker and keyword
phrases use), and the whitespace class of `\s` / `str.strip` by
`Char.isWhitespace` (space, tab, carriage return, newline — the characters
relevant to the extracted text).
-/

namespace JobAnalyzer

/-- Whitespace test used by the model of `\s` (in `re.sub(r'\n\s*\n', ...)`)
and of Python's `str.strip()`. -/
def isWs (c : Char) : Bool := c.isWhitespace

/-- Model of Python's `str.strip()`: remove leading and trailing whitespace. -/
def stripL (l : List Char) : List Char :=
  ((l.dropWhile isWs).reverse.dropWhile isWs).reverse

/-- The part of `w` strictly after its last newline (used to resolve the
greedy `\s*` of the pattern `\n\s*\n`: the regex engine backtracks so the
final `\n` of the pattern lands on the last newline of the whitespace run). -/
def afterLastNl (w : List Char) : List Char :=
  (w.reverse.takeWhile (fun c => c != '\n')).reverse

/-- One pass of `re.sub(r'\n\s*\n', '\n\n', text)` from
`scrape_job_posting_text`.  `re.sub` scans left to right; at a position
starting with `'\n'` whose following contiguous whitespace contains another
newline, the greedy `\s*` with backtracking makes the match end at the last
newline of that whitespace run; the match is replaced by `"\n\n"` and
scanning resumes after the match (matches are non-overlapping).  At any
other position the character is copied and scanning advances by one. -/
def subCollapse : List Char → List Char
  | [] => []
  | c :: rest =>
    if h : c = '\n' ∧ '\n' ∈ rest.takeWhile isWs then
      '\n' :: '\n' :: subCollapse (afterLastNl (rest.takeWhile isWs) ++ rest.dropWhile isWs)
    else
      c :: subCollapse rest
termination_by l => l.length
decreasing_by
  · have key : ∀ m : List Char, '\n' ∈ m →
        (m.takeWhile (fun c => c != '\n')).length < m.length := by
      intro m hm
      induction m with
      | nil => cases hm
      | cons b t ih =>
        by_cases hb : b = '\n'
        · subst hb; simp [List.takeWhile_cons]
        · rcases List.mem_cons.mp hm with hh | hh
          · exact absurd hh.symm hb
          · simp only [List.takeWhile_cons, bne_iff_ne, ne_eq, hb, not_false_eq_true,
              if_true, List.length_cons]
            exact Nat.succ_lt_succ (ih hh)
    have h1 : (afterLastNl (rest.takeWhile isWs)).length < (rest.takeWhile isWs).length := by
      have hm : '\n' ∈ (rest.takeWhile isWs).reverse := List.mem_reverse.mpr h.2
      have := key _ hm
      simpa [afterLastNl] using this
    have h2 : (rest.takeWhile isWs).length + (rest.dropWhile isWs).length = rest.length := by
      rw [← List.length_append, List.takeWhile_append_dropWhile]
    simp only [List.length_append, List.length_cons]
    omega
  · simp only [List.length_cons]
    omega

/-- Model of the whitespace normalization on line 78 (CLI) / 91 (interactive):
`re.sub(r'\n\s*\n', '\n\n', text_content).strip()`. -/
def normalizeText (l : List Char) : List Char :=
  stripL (subCollapse l)

/-- A list contains a collapsible blank pattern: two newlines separated by a
nonempty run of whitespace.  `subCollapse` changes a list exactly when such a
pattern occurs (any match of `\n\s*\n` other than a literal `"\n\n"`), and
its output never contains one. -/
def Bad (t : List Char) : Prop :=
  ∃ m, m ≠ [] ∧ (∀ c ∈ m, isWs c = true) ∧ ('\n' :: (m ++ ['\n'])) <:+: t

/-- The `max_length` bound of `scrape_job_posting_text`. -/
def maxScrapeLength : Nat := 15000

/-- Model of `text_content[:max_length] if len(text_content) > max_length else
text_content`. -/
def truncateText (t : List Char) : List Char :=
  if maxScrapeLength < t.length then t.take maxScrapeLength else t

/-- Model of a parsed HTML document (`soup`), as the scraper observes it:
for each CSS selector string, the visible text (`get_text(separator='\n',
strip=True)`) of the element `soup.select_one(selector)` would return, if
any; and the same for `soup.find('body')`. -/
structure Doc where
  selectOne : String → Option (List Char)
  body : Option (List Char)

/-- The fixed ordered selector list of `scrape_job_posting_text`. -/
def selectors : List String :=
  ["article.job-description", "div.job-description", "section.job-description",
   "div[class*=\"jobDescription\"]", "div[id*=\"jobDescription\"]",
   "div.job-details-content", "div.job-details", "div.description",
   "article", "main"]

/-- The `for selector in selectors` loop: take the text of the first selector
that matches any element, breaking out of the loop. -/
def selectLoop (doc : Doc) : List String → Option (List Char)
  | [] => none
  | s :: rest =>
    match doc.selectOne s with
    | some t => some t
    | none => selectLoop doc rest

/-- The value of `text_content` after the selector loop and its `else` clause
(fall back to the body's text when no selector matched; stay `""` when there
is no body either). -/
def rawTextContent (doc : Doc) : List Char :=
  match selectLoop doc selectors with
  | some t => t
  | none =>
    match doc.body with
    | some b => b
    | none => []

/-- The document-processing tail of `scrape_job_posting_text`: if
`text_content` is falsy, return `None`; otherwise normalize whitespace and
apply the truncation.  (The Python code checks emptiness of the raw text
before normalizing.) -/
def processDoc (doc : Doc) : Option (List Char) :=
  let text_content := rawTextContent doc
  if text_content = [] then none
  else some (truncateText (normalizeText text_content))

/-- Exceptions that can arise inside the `try` block of
`scrape_job_posting_text`, keyed by the `except` clause that catches them. -/
inductive ScrapeExn where
  | timeoutExn
  | requestExn (msg : List Char)
  | otherExn (msg : List Char)

/-- Outcome of the fetch-and-parse attempt for a URL: the request may time
out, fail with a network error, return a non-success HTTP status (so that
`raise_for_status` raises an `HTTPError`, a `RequestException`), fail during
parsing/processing, or produce a parsed document. -/
inductive FetchOutcome where
  | timeout
  | requestError (msg : List Char)
  | httpStatusError (msg : List Char)
  | processingError (msg : List Char)
  | ok (doc : Doc)

/-- The body of the `try` block: each failure mode raises the corresponding
exception; a parsed document is processed by the extraction pipeline. -/
def fetchAndExtract : FetchOutcome → Except ScrapeExn (Option (List Char))
  | .timeout => .error .timeoutExn
  | .requestError m => .error (.requestExn m)
  | .httpStatusError m => .error (.requestExn m)
  | .processingError m => .error (.otherExn m)
  | .ok doc => .ok (processDoc doc)

/-- Model of `scrape_job_posting_text`: run the `try` block; every `except`
clause prints a diagnostic and returns `None`. -/
def scrape_job_posting_text (outcome : FetchOutcome) : Option (List Char) :=
  match fetchAndExtract outcome with
  | .ok r => r
  | .error _ => none

/-- Model of Python's substring operator `sub in l` on strings: `sub` occurs
contiguously somewhere in `l`. -/
def containsSub (sub : List Char) : List Char → Bool
  | [] => sub.isEmpty
  | c :: rest => sub.isPrefixOf (c :: rest) || containsSub sub rest

/-- Model of Python's `str.lower()` (ASCII case; the marker and keyword
phrases are pure ASCII). -/
def lowerL (l : List Char) : List Char := l.map Char.toLower

/-- The marker phrase `"overall fit assessment"` tested against the lowered
Step 5 output. -/
def markerPhrase : List Char := "overall fit assessment".toList

/-- The `positive_fit_keywords` list of `job_analyzer_cli.py` (line 176). -/
def positiveFitKeywordsCli : List (List Char) :=
  ["strong fit", "good fit", "excellent fit", "very good fit", "high potential",
   "well-suited", "strong match", "good match", "moderate fit"].map String.toList

/-- The `positive_fit_keywords` list of `job_analyzer_interactive.py`
(line 262); it additionally contains `"promising fit"`. -/
def positiveFitKeywordsInteractive : List (List Char) :=
  ["strong fit", "good fit", "excellent fit", "very good fit", "high potential",
   "well-suited", "strong match", "good match", "moderate fit",
   "promising fit"].map String.toList

/-- Model of `any(keyword in text for keyword in keywords)`. -/
def anyKeywordIn (keywords : List (List Char)) (text : List Char) : Bool :=
  keywords.any (fun k => containsSub k text)

/-- The CLI fit predicate (`job_analyzer_cli.py` lines 174-185), parametrised
by the keyword set: `proceed_with_generation` becomes `True` exactly when a
positive keyword occurs in the lowered Step 5 output AND the marker phrase
`"overall fit assessment"` also occurs in it; in every other case the branch
leaves `proceed_with_generation = False`. -/
def proceedCliWith (keywords : List (List Char)) (step5Raw : List Char) : Bool :=
  let step5_output := lowerL step5Raw
  anyKeywordIn keywords step5_output && containsSub markerPhrase step5_output

/-- The CLI fit predicate with its actual keyword list. -/
def proceed_with_generation_cli (step5Raw : List Char) : Bool :=
  proceedCliWith positiveFitKeywordsCli step5Raw

/-- Everything strictly after the first occurrence of `sep` in `l` (empty
when `sep` does not occur). -/
def dropThroughFirst (sep : List Char) : List Char → List Char
  | [] => []
  | c :: rest =>
    if sep.isPrefixOf (c :: rest) then (c :: rest).drop sep.length
    else dropThroughFirst sep rest

/-- Everything strictly before the first occurrence of `sep` in `l` (all of
`l` when `sep` does not occur). -/
def takeUntilFirst (sep : List Char) : List Char → List Char
  | [] => []
  | c :: rest =>
    if sep.isPrefixOf (c :: rest) then []
    else c :: takeUntilFirst sep rest

/-- Model of `text.split(sep)[1]` for a separator that occurs in `text`:
Python's `str.split` cuts at non-overlapping occurrences left to right, so
element 1 is the segment between the end of the first occurrence and the
start of the next occurrence (or the end of the string). -/
def splitSecond (sep l : List Char) : List Char :=
  takeUntilFirst sep (dropThroughFirst sep l)

/-- The interactive fit predicate (`job_analyzer_interactive.py` lines
258-278), parametrised by the keyword set: if the lowered Step 5 output
contains the marker, search `step5_output.split("overall fit assessment")[1]`
for a positive keyword; otherwise fall back to searching the whole lowered
output. -/
def proceedInteractiveWith (keywords : List (List Char)) (step5Raw : List Char) : Bool :=
  let step5_output := lowerL step5Raw
  if containsSub markerPhrase step5_output then
    anyKeywordIn keywords (splitSecond markerPhrase step5_output)
  else
    anyKeywordIn keywords step5_output

/-- The interactive fit predicate with its actual keyword list. -/
def proceed_with_generation_interactive (step5Raw : List Char) : Bool :=
  proceedInteractiveWith positiveFitKeywordsInteractive step5Raw

/-- Outcome of one remote generation call as `call_llm` distinguishes them:
a completion with choices (whose first message content is recorded), a
completion without choices, or an exception. -/
inductive LLMOutcome where
  | success (content : List Char)
  | noChoices
  | error (msg : List Char)

/-- The raw text `call_llm` returns as second component: the stripped message
content on success, and the empty string when there is no valid choice or an
exception occurred. -/
def llmText : LLMOutcome → List Char
  | .success c => stripL c
  | .noChoices => []
  | .error _ => []

/-- Whether an outcome is one of the two failure shapes for which `call_llm`
records an empty Step Result. -/
def isFailureOutcome : LLMOutcome → Bool
  | .success _ => false
  | .noChoices => true
  | .error _ => true

/-- The step names of the five core steps, in execution order (identical in
both scripts). -/
def coreStepNames : List String :=
  ["Step 1: Analyze Job Posting",
   "Step 2: Candidate Data Mapping",
   "Step 3: Ideal Profile & Personalized Positioning",
   "Step 4: Initial Company Vetting",
   "Step 5: Synthesize Findings (Personalized)"]

/-- The key under which the deep-dive research output is stored. -/
def deepDiveStepName : String := "Step 5.5: Deep Dive Company Research"

/-- A run's remote-call outcomes, indexed by call order (0-4 the core steps,
5 the deep-dive step when reached). -/
def Oracle : Type := Nat → LLMOutcome

/-- The `step_results_text` dictionary after the core loop: the loop stores
`text_content` under each core step's name, in order. -/
def runCoreSteps (o : Oracle) : List (String × List Char) :=
  [("Step 1: Analyze Job Posting", llmText (o 0)),
   ("Step 2: Candidate Data Mapping", llmText (o 1)),
   ("Step 3: Ideal Profile & Personalized Positioning", llmText (o 2)),
   ("Step 4: Initial Company Vetting", llmText (o 3)),
   ("Step 5: Synthesize Findings (Personalized)", llmText (o 4))]

/-- Model of `step_results_text.get("Step 5: Synthesize Findings
(Personalized)", "")`. -/
def step5Output (o : Oracle) : List Char :=
  ((runCoreSteps o).lookup "Step 5: Synthesize Findings (Personalized)").getD []

/-- The branch decision the CLI script takes for a run. -/
def decisionCli (o : Oracle) : Bool :=
  proceed_with_generation_cli (step5Output o)

/-- The branch decision the interactive script takes for a run. -/
def decisionInteractive (o : Oracle) : Bool :=
  proceed_with_generation_interactive (step5Output o)

/-- The `step_results_text` dictionary at the end of a CLI run: the deep-dive
result is stored only when the branch proceeds; the Step 6 and Step 7 raw
outputs are never stored (the code discards the second component of
`call_llm` for them). -/
def stepResultsFinalCli (o : Oracle) : List (String × List Char) :=
  if decisionCli o then runCoreSteps o ++ [(deepDiveStepName, llmText (o 5))]
  else runCoreSteps o

/-- The `step_results_text` dictionary at the end of an interactive run. -/
def stepResultsFinalInteractive (o : Oracle) : List (String × List Char) :=
  if decisionInteractive o then runCoreSteps o ++ [(deepDiveStepName, llmText (o 5))]
  else runCoreSteps o

/-- The fixed set of keys the step-results map may ever contain. -/
def allowedStepKeys : List String :=
  coreStepNames ++ [deepDiveStepName]

/-- Invariant of BeautifulSoup's `get_text(separator='\n', strip=True)`: it
joins the stripped, non-empty descendant strings with the separator, so its
result is either empty or contains a non-whitespace character. -/
def GetTextWF (t : List Char) : Prop :=
  t = [] ∨ ∃ c ∈ t, isWs c = false

/-- A document all of whose recorded element texts satisfy the
`get_text(strip=True)` invariant; every document the scraper can actually
build from parsed HTML is of this shape. -/
def DocWF (doc : Doc) : Prop :=
  (∀ s t, doc.selectOne s = some t → GetTextWF t) ∧
  (∀ t, doc.body = some t → GetTextWF t)

/-- A concrete parsed document in which only the selector `"article"`
matches. -/
def articleOnlyDoc : Doc where
  selectOne := fun s => if s = "article" then some ("Job description text".toList) else none
  body := some ("body text".toList)

/-- A concrete parsed document with no selector match and a body. -/
def bodyOnlyDoc : Doc where
  selectOne := fun _ => none
  body := some ['h', 'i']

/-- A concrete parsed document with no selector match and no body. -/
def emptyDoc : Doc where
  selectOne := fun _ => none
  body := none

/-- A concrete run in which the Step 2 remote call fails but Step 5 succeeds
with a positive assessment. -/
def cexOracle : Oracle := fun i =>
  if i = 1 then .error []
  else if i = 4 then
    .success ("Overall Fit Assessment: Strong Fit - excellent alignment.".toList)
  else .success ("ok".toList)

/-- A concrete run in which every remote call fails. -/
def allFailOracle : Oracle := fun _ => .error []

/-- A one-element keyword set used to instantiate the monotonicity claim. -/
def smallKeywordSet : List (List Char) := [("strong fit".toList)]

/-! ### Helper lemmas -/

theorem selectLoop_first_match {doc : Doc} :
    ∀ (pre : List String) (s : String) (post : List String) (t : List Char),
      (∀ p ∈ pre, doc.selectOne p = none) → doc.selectOne s = some t →
      selectLoop doc (pre ++ s :: post) = some t := by
  intro pre
  induction pre with
  | nil =>
    intro s post t _ hs
    simp [selectLoop, hs]
  | cons p pre ih =>
    intro s post t hpre hs
    have hp : doc.selectOne p = none := hpre p (List.mem_cons_self p pre)
    have hrest : ∀ q ∈ pre, doc.selectOne q = none := fun q hq =>
      hpre q (List.mem_cons_of_mem p hq)
    simpa [selectLoop, hp] using ih s post t hrest hs

theorem selectLoop_all_none {doc : Doc} :
    ∀ sels : List String, (∀ s ∈ sels, doc.selectOne s = none) →
      selectLoop doc sels = none := by
  intro sels
  induction sels with
  | nil => intro _; rfl
  | cons s rest ih =>
    intro h
    have hs : doc.selectOne s = none := h s (List.mem_cons_self s rest)
    simpa [selectLoop, hs] using ih (fun q hq => h q (List.mem_cons_of_mem s hq))

theorem anyKeywordIn_mono {K Kbig : List (List Char)} (hsub : K ⊆ Kbig) {t : List Char}
    (h : anyKeywordIn K t = true) : anyKeywordIn Kbig t = true := by
  rcases List.any_eq_true.mp h with ⟨k, hk, hck⟩
  exact List.any_eq_true.mpr ⟨k, hsub hk, hck⟩

theorem step5Output_eq (o : Oracle) : step5Output o = llmText (o 4) := by
  rfl

theorem dropWhile_idem {p : Char → Bool} (l : List Char) :
    (l.dropWhile p).dropWhile p = l.dropWhile p := by
  induction l with
  | nil => rfl
  | cons a t ih =>
    by_cases h : p a
    · simp [List.dropWhile_cons, h, ih]
    · simp [List.dropWhile_cons, h]

theorem dropWhile_eq_self_of_prefix {p : Char → Bool} {u v : List Char}
    (hu : u <+: v) (hv : v.dropWhile p = v) : u.dropWhile p = u := by
  cases u with
  | nil => rfl
  | cons a u2 =>
    rcases hu with ⟨t, ht⟩
    subst ht
    have hpa : p a = false := by
      by_contra hpa0
      have hpa1 : p a = true := by simpa using hpa0
      rw [List.cons_append, List.dropWhile_cons, if_pos hpa1] at hv
      have hle := ( List.dropWhile_suffix p (l := u2 ++ t)).sublist.length_le
      have hcg := congrArg List.length hv
      simp only [List.length_cons] at hcg
      omega
    simp [List.dropWhile_cons, hpa]

theorem stripL_prefix_dropWhile (l : List Char) : stripL l <+: l.dropWhile isWs := by
  have h : (l.dropWhile isWs).reverse.dropWhile isWs <:+ (l.dropWhile isWs).reverse :=
    List.dropWhile_suffix isWs
  have h2 := List.reverse_prefix.mpr h
  simpa [stripL] using h2

theorem stripL_le (l : List Char) : stripL l <:+: l := by
  have h1 : stripL l <+: l.dropWhile isWs := stripL_prefix_dropWhile l
  have h2 : l.dropWhile isWs <:+ l := List.dropWhile_suffix isWs
  exact ( List.IsPrefix.isInfix h1).trans ( List.IsSuffix.isInfix h2)

theorem stripL_idem (l : List Char) : stripL (stripL l) = stripL l := by
  have hA : (stripL l).dropWhile isWs = stripL l :=
    dropWhile_eq_self_of_prefix (stripL_prefix_dropWhile l) (dropWhile_idem l)
  show (((stripL l).dropWhile isWs).reverse.dropWhile isWs).reverse = stripL l
  rw [hA]
  have hrev : (stripL l).reverse = (l.dropWhile isWs).reverse.dropWhile isWs := by
    unfold stripL
    rw [List.reverse_reverse]
  rw [hrev, dropWhile_idem ((l.dropWhile isWs).reverse)]
  rfl

theorem subCollapse_nil : subCollapse [] = [] := by
  simp [subCollapse]

theorem subCollapse_cons_not_match {a : Char} {x : List Char}
    (h : ¬(a = '\n' ∧ '\n' ∈ x.takeWhile isWs)) :
    subCollapse (a :: x) = a :: subCollapse x := by
  rw [subCollapse]
  rw [dif_neg h]

theorem subCollapse_cons_match {x : List Char} (h : '\n' ∈ x.takeWhile isWs) :
    subCollapse ('\n' :: x) =
      '\n' :: '\n' :: subCollapse (afterLastNl (x.takeWhile isWs) ++ x.dropWhile isWs) := by
  rw [subCollapse]
  rw [dif_pos ⟨rfl, h⟩]

theorem subCollapse_append_no_nl {A : List Char} (hA : '\n' ∉ A) :
    ∀ y : List Char, subCollapse (A ++ y) = A ++ subCollapse y := by
  induction A with
  | nil => intro y; simp
  | cons a A2 ih =>
    intro y
    have ha : a ≠ '\n' := fun h => hA (by rw [← h]; exact List.mem_cons_self a A2)
    have hA2 : '\n' ∉ A2 := fun h => hA (List.mem_cons_of_mem a h)
    rw [List.cons_append, subCollapse_cons_not_match (fun hand => ha hand.1), ih hA2,
      List.cons_append]

theorem dropWhile_head_false {p : Char → Bool} :
    ∀ {l : List Char} {d : Char} {y : List Char}, l.dropWhile p = d :: y → p d = false := by
  intro l
  induction l with
  | nil => intro d y h; simp at h
  | cons a t ih =>
    intro d y h
    by_cases hpa : p a
    · rw [List.dropWhile_cons, if_pos (by simpa using hpa)] at h
      exact ih h
    · rw [List.dropWhile_cons, if_neg (by simpa using hpa)] at h
      injection h with h1 h2
      subst h1
      simpa using hpa

theorem exists_split_at_first {p : Char → Bool} {l : List Char} {a : Char}
    (ha : a ∈ l) (hpa : p a = false) :
    ∃ d tail, l.dropWhile p = d :: tail ∧ p d = false ∧
      l = l.takeWhile p ++ d :: tail := by
  cases hd : l.dropWhile p with
  | nil =>
    exfalso
    have hdec := List.takeWhile_append_dropWhile (p := p) (l := l)
    rw [hd, List.append_nil] at hdec
    have ham : a ∈ l.takeWhile p := by rw [hdec]; exact ha
    have hpt := List.mem_takeWhile_imp ham
    rw [hpa] at hpt
    cases hpt
  | cons d tail =>
    refine ⟨d, tail, rfl, dropWhile_head_false hd, ?_⟩
    conv_lhs => rw [← List.takeWhile_append_dropWhile (p := p) (l := l)]
    rw [hd]

theorem takeWhile_isWs_subCollapse {l : List Char} (h : '\n' ∉ l.takeWhile isWs) :
    (subCollapse l).takeWhile isWs = l.takeWhile isWs := by
  have hdecomp : l = l.takeWhile isWs ++ l.dropWhile isWs :=
    (List.takeWhile_append_dropWhile isWs l).symm
  have hsub : subCollapse l = l.takeWhile isWs ++ subCollapse (l.dropWhile isWs) := by
    conv_lhs => rw [hdecomp]
    exact subCollapse_append_no_nl h _
  rw [hsub]
  have hallws : ∀ c ∈ l.takeWhile isWs, isWs c := fun c hc => List.mem_takeWhile_imp hc
  rw [List.takeWhile_append_of_pos hallws]
  have htail : (subCollapse (l.dropWhile isWs)).takeWhile isWs = [] := by
    cases hy : l.dropWhile isWs with
    | nil => simp [subCollapse]
    | cons d y2 =>
      have hd : isWs d = false := dropWhile_head_false hy
      have hdn : d ≠ '\n' := by
        intro he
        subst he
        simp [isWs] at hd
      rw [subCollapse_cons_not_match (fun hand => hdn hand.1)]
      rw [List.takeWhile_cons_of_neg (by simp [hd])]
  rw [htail, List.append_nil]

theorem Bad.mono {u t : List Char} (hb : Bad u) (hut : u <:+: t) : Bad t := by
  rcases hb with ⟨m, h0, hws, hinf⟩
  exact ⟨m, h0, hws, hinf.trans hut⟩

theorem not_bad_nil : ¬ Bad [] := by
  rintro ⟨m, h0, hws, hinf⟩
  rw [List.infix_nil] at hinf
  simp at hinf

theorem nl_mem_takeWhile_of_ws :
    ∀ m : List Char, (∀ c ∈ m, isWs c = true) →
      ∀ {x : List Char}, (m ++ ['\n']) <+: x → '\n' ∈ x.takeWhile isWs := by
  intro m
  induction m with
  | nil =>
    intro _ x hx
    simp only [List.nil_append] at hx
    rcases hx with ⟨t, ht⟩
    rw [← ht]
    rw [List.singleton_append, List.takeWhile_cons_of_pos (by decide)]
    exact List.mem_cons_self _ _
  | cons c m2 ih =>
    intro hm x hx
    have hc : isWs c = true := hm c (List.mem_cons_self c m2)
    have hm2 : ∀ d ∈ m2, isWs d = true := fun d hd => hm d (List.mem_cons_of_mem c hd)
    cases x with
    | nil =>
      rcases hx with ⟨t, ht⟩
      simp at ht
    | cons a x2 =>
      rw [List.cons_append, List.cons_prefix_cons] at hx
      rcases hx with ⟨heq, hx2⟩
      rw [← heq, List.takeWhile_cons_of_pos (by simpa using hc)]
      exact List.mem_cons_of_mem _ (ih hm2 hx2)

theorem takeWhile_isWs_dropWhile (l : List Char) :
    (l.dropWhile isWs).takeWhile isWs = [] := by
  cases hy : l.dropWhile isWs with
  | nil => rfl
  | cons d y2 =>
    rw [List.takeWhile_cons_of_neg (by simp [dropWhile_head_false hy])]

theorem mem_afterLastNl {c : Char} {w : List Char} (hc : c ∈ afterLastNl w) :
    c ∈ w ∧ c ≠ '\n' := by
  unfold afterLastNl at hc
  rw [List.mem_reverse] at hc
  constructor
  · have h1 := ( List.takeWhile_prefix (fun c => c != '\n') (l := w.reverse)).subset hc
    rw [List.mem_reverse] at h1
    exact h1
  · have h2 := List.mem_takeWhile_imp hc
    simpa using h2

theorem subCollapse_eq_self_of_not_bad : ∀ t : List Char, ¬ Bad t → subCollapse t = t := by
  intro t
  induction t using subCollapse.induct with
  | case1 => intro _; exact subCollapse_nil
  | case2 c rest h ih =>
    intro hnb
    obtain ⟨hc, hw⟩ := h
    subst hc
    have hrest2 : rest = rest.takeWhile isWs ++ rest.dropWhile isWs :=
      (List.takeWhile_append_dropWhile isWs rest).symm
    obtain ⟨d, tail, hdrop, hd, hsplit⟩ :=
      exists_split_at_first (p := fun c => c != '\n') hw (by simp)
    have hdn : d = '\n' := by simpa using hd
    subst hdn
    by_cases hm : (rest.takeWhile isWs).takeWhile (fun c => c != '\n') = []
    · rw [hm, List.nil_append] at hsplit
      by_cases htail : '\n' ∈ tail
      · exfalso
        apply hnb
        obtain ⟨d2, tail2, hdrop2, hd2, hsplit2⟩ :=
          exists_split_at_first (p := fun c => c != '\n') htail (by simp)
        have hd2n : d2 = '\n' := by simpa using hd2
        subst hd2n
        refine ⟨'\n' :: tail.takeWhile (fun c => c != '\n'), by simp, ?_, ?_⟩
        · intro x hx
          rcases List.mem_cons.mp hx with hx1 | hx2
          · subst hx1; decide
          · have h1 := ( List.takeWhile_prefix (fun c => c != '\n') (l := tail)).subset hx2
            have h2 : x ∈ rest.takeWhile isWs := by
              rw [hsplit]
              exact List.mem_cons_of_mem _ h1
            exact List.mem_takeWhile_imp h2
        · refine ⟨[], tail2 ++ rest.dropWhile isWs, ?_⟩
          rw [List.nil_append]
          conv_rhs => rw [hrest2, hsplit, hsplit2]
          simp [List.append_assoc]
      · have hAL : afterLastNl (rest.takeWhile isWs) = tail := by
          unfold afterLastNl
          rw [hsplit, List.reverse_cons]
          rw [List.takeWhile_append_of_pos ?hall]
          case hall =>
            intro x hx
            rw [List.mem_reverse] at hx
            simp only [bne_iff_ne, ne_eq]
            exact fun he => htail (he ▸ hx)
          rw [List.takeWhile_cons_of_neg (by simp), List.append_nil, List.reverse_reverse]
        have hrest3 : rest = '\n' :: (tail ++ rest.dropWhile isWs) := by
          conv_lhs => rw [hrest2, hsplit]
          simp
        have hsuf : (tail ++ rest.dropWhile isWs) <:+: ('\n' :: rest) := by
          have h1 : (tail ++ rest.dropWhile isWs) <:+ rest := by
            conv_rhs => rw [hrest3]
            exact List.suffix_cons _ _
          exact List.IsSuffix.isInfix (h1.trans (List.suffix_cons _ _))
        have hnb2 : ¬ Bad (afterLastNl (rest.takeWhile isWs) ++ rest.dropWhile isWs) := by
          rw [hAL]
          exact fun hb => hnb (Bad.mono hb hsuf)
        rw [subCollapse_cons_match hw, ih hnb2, hAL]
        rw [← hrest3]
    · exfalso
      apply hnb
      refine ⟨(rest.takeWhile isWs).takeWhile (fun c => c != '\n'), hm, ?_, ?_⟩
      · intro x hx
        have h1 := ( List.takeWhile_prefix (fun c => c != '\n')
          (l := rest.takeWhile isWs)).subset hx
        exact List.mem_takeWhile_imp h1
      · refine ⟨[], tail ++ rest.dropWhile isWs, ?_⟩
        rw [List.nil_append]
        conv_rhs => rw [hrest2, hsplit]
        simp [List.append_assoc]
  | case3 c rest h ih =>
    intro hnb
    rw [subCollapse_cons_not_match h]
    have hrest : ¬ Bad rest :=
      fun hb => hnb (Bad.mono hb ( List.IsSuffix.isInfix (List.suffix_cons c rest)))
    rw [ih hrest]

theorem not_bad_subCollapse : ∀ l : List Char, ¬ Bad (subCollapse l) := by
  intro l
  induction l using subCollapse.induct with
  | case1 => rw [subCollapse_nil]; exact not_bad_nil
  | case2 c rest h ih =>
    obtain ⟨hc, hw⟩ := h
    subst hc
    rw [subCollapse_cons_match hw]
    have hnl_tail :
        '\n' ∉ (afterLastNl (rest.takeWhile isWs) ++ rest.dropWhile isWs).takeWhile isWs := by
      have hAws : ∀ x ∈ afterLastNl (rest.takeWhile isWs), isWs x := by
        intro x hx
        exact List.mem_takeWhile_imp (mem_afterLastNl hx).1
      rw [List.takeWhile_append_of_pos hAws, takeWhile_isWs_dropWhile, List.append_nil]
      intro hmem
      exact (mem_afterLastNl hmem).2 rfl
    have hnl_sub :
        '\n' ∉ (subCollapse (afterLastNl (rest.takeWhile isWs) ++
          rest.dropWhile isWs)).takeWhile isWs := by
      rw [takeWhile_isWs_subCollapse hnl_tail]
      exact hnl_tail
    rintro ⟨m, h0, hws, hinf⟩
    rw [List.infix_cons_iff] at hinf
    rcases hinf with hpre | hinf2
    · rw [List.cons_prefix_cons] at hpre
      rcases hpre with ⟨-, hpre2⟩
      cases m with
      | nil => exact h0 rfl
      | cons m0 m1 =>
        rw [List.cons_append, List.cons_prefix_cons] at hpre2
        rcases hpre2 with ⟨-, hpre3⟩
        exact hnl_sub
          (nl_mem_takeWhile_of_ws m1 (fun d hd => hws d (List.mem_cons_of_mem m0 hd)) hpre3)
    · rw [List.infix_cons_iff] at hinf2
      rcases hinf2 with hpre | hinf3
      · rw [List.cons_prefix_cons] at hpre
        rcases hpre with ⟨-, hpre2⟩
        exact hnl_sub (nl_mem_takeWhile_of_ws m hws hpre2)
      · exact ih ⟨m, h0, hws, hinf3⟩
  | case3 c rest h ih =>
    rw [subCollapse_cons_not_match h]
    rintro ⟨m, h0, hws, hinf⟩
    rw [List.infix_cons_iff] at hinf
    rcases hinf with hpre | hinf2
    · rw [List.cons_prefix_cons] at hpre
      rcases hpre with ⟨hceq, hpre2⟩
      have hnw : '\n' ∉ rest.takeWhile isWs := fun hmem => h ⟨hceq.symm, hmem⟩
      have hmem2 := nl_mem_takeWhile_of_ws m hws hpre2
      rw [takeWhile_isWs_subCollapse hnw] at hmem2
      exact hnw hmem2
    · exact ih ⟨m, h0, hws, hinf2⟩

theorem mem_dropWhile_of_not {p : Char → Bool} {c : Char} (hc : p c = false)
    {l : List Char} (hm : c ∈ l) : c ∈ l.dropWhile p := by
  have hmem : c ∈ l.takeWhile p ++ l.dropWhile p := by
    rw [List.takeWhile_append_dropWhile]
    exact hm
  rcases List.mem_append.mp hmem with h1 | h2
  · have hpt := List.mem_takeWhile_imp h1
    rw [hc] at hpt
    cases hpt
  · exact h2

theorem mem_stripL_of_not_ws {c : Char} (hc : isWs c = false) {l : List Char}
    (hm : c ∈ l) : c ∈ stripL l := by
  unfold stripL
  rw [List.mem_reverse]
  apply mem_dropWhile_of_not hc
  rw [List.mem_reverse]
  exact mem_dropWhile_of_not hc hm

theorem mem_subCollapse_of_not_ws {c : Char} (hc : isWs c = false) :
    ∀ {l : List Char}, c ∈ l → c ∈ subCollapse l := by
  intro l
  induction l using subCollapse.induct with
  | case1 =>
    intro hmem
    exact absurd hmem (List.not_mem_nil c)
  | case2 a rest h ih =>
    obtain ⟨ha, hw⟩ := h
    subst ha
    intro hmem
    rw [subCollapse_cons_match hw]
    rcases List.mem_cons.mp hmem with h1 | h2
    · subst h1
      simp [isWs] at hc
    · have hmem2 : c ∈ rest.takeWhile isWs ++ rest.dropWhile isWs := by
        rw [List.takeWhile_append_dropWhile]
        exact h2
      rcases List.mem_append.mp hmem2 with h3 | h4
      · have hpt := List.mem_takeWhile_imp h3
        rw [hc] at hpt
        cases hpt
      · have h5 : c ∈ afterLastNl (rest.takeWhile isWs) ++ rest.dropWhile isWs :=
          List.mem_append.mpr (Or.inr h4)
        exact List.mem_cons_of_mem _ (List.mem_cons_of_mem _ (ih h5))
  | case3 a rest h ih =>
    intro hmem
    rw [subCollapse_cons_not_match h]
    rcases List.mem_cons.mp hmem with h1 | h2
    · rw [h1]
      exact List.mem_cons_self _ _
    · exact List.mem_cons_of_mem _ (ih h2)

theorem selectLoop_some_source {doc : Doc} :
    ∀ (sels : List String) (t : List Char), selectLoop doc sels = some t →
      ∃ s ∈ sels, doc.selectOne s = some t := by
  intro sels
  induction sels with
  | nil =>
    intro t h
    simp [selectLoop] at h
  | cons s rest ih =>
    intro t h
    cases hs : doc.selectOne s with
    | some u =>
      simp only [selectLoop, hs] at h
      injection h with h1
      exact ⟨s, List.mem_cons_self s rest, by rw [hs, h1]⟩
    | none =>
      simp only [selectLoop, hs] at h
      rcases ih t h with ⟨q, hq1, hq2⟩
      exact ⟨q, List.mem_cons_of_mem _ hq1, hq2⟩

theorem rawTextContent_cases (doc : Doc) :
    rawTextContent doc = [] ∨
    (∃ s t, doc.selectOne s = some t ∧ rawTextContent doc = t) ∨
    (∃ b, doc.body = some b ∧ rawTextContent doc = b) := by
  cases hloop : selectLoop doc selectors with
  | some t =>
    rcases selectLoop_some_source selectors t hloop with ⟨s, _, hs⟩
    exact Or.inr (Or.inl ⟨s, t, hs, by simp [rawTextContent, hloop]⟩)
  | none =>
    cases hb : doc.body with
    | some b => exact Or.inr (Or.inr ⟨b, rfl, by simp [rawTextContent, hloop, hb]⟩)
    | none => exact Or.inl (by simp [rawTextContent, hloop, hb])

/-! ### Claim C6: whitespace normalization is idempotent -/

/-- Claim C6: applying the whitespace normalization of the scraper (replace
every match of the blank-line-collapsing pattern `\n\s*\n` by a single blank
line, then strip leading and trailing whitespace) twice yields exactly the
same string as applying it once, for every input string. -/
theorem C6_normalize_idempotent (s : List Char) :
    normalizeText (normalizeText s) = normalizeText s := by
  have h1 : ¬ Bad (subCollapse s) := not_bad_subCollapse s
  have h2 : stripL (subCollapse s) <:+: subCollapse s := stripL_le _
  have h3 : ¬ Bad (stripL (subCollapse s)) := fun hb => h1 (Bad.mono hb h2)
  show stripL (subCollapse (stripL (subCollapse s))) = stripL (subCollapse s)
  rw [subCollapse_eq_self_of_not_bad _ h3, stripL_idem]

/-! ### Claim C8: empty-after-normalization pages yield an absent result -/

/-- Claim C8: for every successfully fetched and parsed page (well-formed in
the sense that element texts produced by `get_text(strip=True)` are empty or
contain a non-whitespace character) whose extracted text becomes empty after
whitespace normalization, the extractor returns `None`, never an empty
string.  (The code tests emptiness before normalizing, but under the
`get_text` invariant a nonempty raw text keeps a non-whitespace character
through normalization, so the two tests agree.) -/
theorem C8_empty_normalized_absent (doc : Doc) (hwf : DocWF doc)
    (hempty : normalizeText (rawTextContent doc) = []) :
    processDoc doc = none := by
  by_cases hraw : rawTextContent doc = []
  · simp [processDoc, hraw]
  · exfalso
    have hwfraw : GetTextWF (rawTextContent doc) := by
      rcases rawTextContent_cases doc with h | ⟨s, t, hst, hrt⟩ | ⟨b, hb, hrt⟩
      · exact absurd h hraw
      · rw [hrt]
        exact hwf.1 s t hst
      · rw [hrt]
        exact hwf.2 b hb
    rcases hwfraw with h | ⟨c, hcmem, hcws⟩
    · exact hraw h
    · have h1 : c ∈ subCollapse (rawTextContent doc) :=
        mem_subCollapse_of_not_ws hcws hcmem
      have h2 : c ∈ normalizeText (rawTextContent doc) :=
        mem_stripL_of_not_ws hcws h1
      rw [hempty] at h2
      cases h2

/-- Witness for C8: a parsed page with no selector match and no body has
empty raw and normalized text, and the extractor returns `None` on it. -/
theorem C8_empty_normalized_absent_witness : processDoc emptyDoc = none :=
  C8_empty_normalized_absent emptyDoc
    ⟨fun s t h => by simp [emptyDoc] at h, fun t h => by simp [emptyDoc] at h⟩
    (by simp [rawTextContent, selectLoop, selectors, emptyDoc, normalizeText,
      subCollapse, stripL])

/-! ### Claim C3: the content extractor never propagates an exception -/

/-- Claim C3: for every URL and every fetch/parse outcome (timeout, network
error, non-success HTTP status, parse/processing error, or a parsed page),
`scrape_job_posting_text` returns normally with either extracted text or
`None`; every exception raised inside the `try` block is caught and
converted to `None`. -/
theorem C3_scrape_never_raises (outcome : FetchOutcome) :
    ((∃ e, fetchAndExtract outcome = .error e) → scrape_job_posting_text outcome = none) ∧
    (scrape_job_posting_text outcome = none ∨
      ∃ t, scrape_job_posting_text outcome = some t) := by
  constructor
  · rintro ⟨e, he⟩
    cases outcome <;> simp_all [scrape_job_posting_text, fetchAndExtract]
  · cases hr : scrape_job_posting_text outcome with
    | none => exact Or.inl rfl
    | some t => exact Or.inr ⟨t, rfl⟩

/-- Witness for C3: the timeout outcome raises inside the `try` block and the
extractor returns `None` for it. -/
theorem C3_scrape_never_raises_witness :
    scrape_job_posting_text FetchOutcome.timeout = none :=
  (C3_scrape_never_raises FetchOutcome.timeout).1 ⟨ScrapeExn.timeoutExn, rfl⟩

/-! ### Claim C4: selector-priority invariant -/

/-- Claim C4: if some selector of the fixed ordered list matches, the
extracted raw text is the text of the element matched by the earliest
matching selector; the fall-back to the document body happens only when no
selector matches. -/
theorem C4_selector_priority (doc : Doc) :
    (∀ (pre : List String) (s : String) (post : List String) (t : List Char),
      selectors = pre ++ s :: post →
      (∀ p ∈ pre, doc.selectOne p = none) →
      doc.selectOne s = some t →
      rawTextContent doc = t) ∧
    ((∀ s ∈ selectors, doc.selectOne s = none) →
      rawTextContent doc = doc.body.getD []) := by
  constructor
  · intro pre s post t hsel hpre hs
    have hloop : selectLoop doc selectors = some t := by
      rw [hsel]
      exact selectLoop_first_match pre s post t hpre hs
    simp [rawTextContent, hloop]
  · intro hnone
    have hloop : selectLoop doc selectors = none := selectLoop_all_none selectors hnone
    cases hb : doc.body <;> simp [rawTextContent, hloop, hb]

/-- Witness for C4: in a document where only the ninth selector
(`"article"`) matches, extraction returns that element's text. -/
theorem C4_selector_priority_witness :
    rawTextContent articleOnlyDoc = "Job description text".toList :=
  (C4_selector_priority articleOnlyDoc).1
    ["article.job-description", "div.job-description", "section.job-description",
     "div[class*=\"jobDescription\"]", "div[id*=\"jobDescription\"]",
     "div.job-details-content", "div.job-details", "div.description"]
    "article" ["main"] ("Job description text".toList)
    (by decide) (by decide) (by decide)

/-! ### Claim C7: extracted text is bounded by 15000 characters -/

/-- Claim C7: any text the extractor returns has length at most 15000
characters, and the truncation operation is total, computing exactly
`min (length) 15000`. -/
theorem C7_length_bound :
    (∀ (outcome : FetchOutcome) (t : List Char),
      scrape_job_posting_text outcome = some t → t.length ≤ maxScrapeLength) ∧
    (∀ s : List Char, (truncateText s).length = min s.length maxScrapeLength) := by
  have htrunc : ∀ s : List Char, (truncateText s).length = min s.length maxScrapeLength := by
    intro s
    unfold truncateText
    by_cases hlt : maxScrapeLength < s.length
    · simp only [hlt, if_true, List.length_take]
      omega
    · simp only [hlt, if_false]
      omega
  refine ⟨?_, htrunc⟩
  intro outcome t h
  cases outcome with
  | timeout => simp [scrape_job_posting_text, fetchAndExtract] at h
  | requestError m => simp [scrape_job_posting_text, fetchAndExtract] at h
  | httpStatusError m => simp [scrape_job_posting_text, fetchAndExtract] at h
  | processingError m => simp [scrape_job_posting_text, fetchAndExtract] at h
  | ok doc =>
    simp only [scrape_job_posting_text, fetchAndExtract] at h
    unfold processDoc at h
    by_cases hraw : rawTextContent doc = []
    · simp [hraw] at h
    · simp only [hraw, if_false] at h
      have ht : t = truncateText (normalizeText (rawTextContent doc)) :=
        (Option.some.injEq _ _ ▸ h).symm
      rw [ht, htrunc]
      omega

/-- Witness for C7: a successfully scraped two-character body is returned
whole and its length is within the bound. -/
theorem C7_length_bound_witness :
    (['h', 'i'] : List Char).length ≤ maxScrapeLength :=
  C7_length_bound.1 (FetchOutcome.ok bodyOnlyDoc) ['h', 'i']
    (by simp [scrape_job_posting_text, fetchAndExtract, processDoc, rawTextContent,
      selectLoop, selectors, normalizeText, truncateText, subCollapse, stripL, isWs,
      maxScrapeLength, bodyOnlyDoc])

/-! ### Claim C1: the marker-absent fallback -/

/-- Counterexample for claim C1 as stated: on the Step 5 output
`"strong fit"` the marker is absent and a positive keyword is present, yet
the CLI orchestrator decides to skip (its code requires the marker in
addition to a keyword), so the fallback-to-proceed behaviour does not hold
for every orchestrator variant. -/
theorem C1_counterexample :
    containsSub markerPhrase (lowerL ("strong fit".toList)) = false ∧
    anyKeywordIn positiveFitKeywordsCli (lowerL ("strong fit".toList)) = true ∧
    anyKeywordIn positiveFitKeywordsInteractive (lowerL ("strong fit".toList)) = true ∧
    proceed_with_generation_cli ("strong fit".toList) = false := by
  decide

/-- Claim C1 (amended): for every Step 5 output without the marker phrase,
the interactive orchestrator applies the keyword search to the whole output
and proceeds when a positive keyword is present, while the CLI orchestrator
always skips when the marker is absent. -/
theorem C1_fallback (step5Raw : List Char)
    (hmarker : containsSub markerPhrase (lowerL step5Raw) = false) :
    (anyKeywordIn positiveFitKeywordsInteractive (lowerL step5Raw) = true →
      proceed_with_generation_interactive step5Raw = true) ∧
    proceed_with_generation_cli step5Raw = false := by
  constructor
  · intro hk
    simp [proceed_with_generation_interactive, proceedInteractiveWith, hmarker, hk]
  · simp [proceed_with_generation_cli, proceedCliWith, hmarker]

/-- Witness for C1 (amended): on `"strong fit"` the interactive variant
proceeds and the CLI variant skips. -/
theorem C1_fallback_witness :
    proceed_with_generation_interactive ("strong fit".toList) = true ∧
    proceed_with_generation_cli ("strong fit".toList) = false :=
  ⟨(C1_fallback ("strong fit".toList) (by decide)).1 (by decide),
   (C1_fallback ("strong fit".toList) (by decide)).2⟩

/-! ### Claim C2: a failing core step and the default skip -/

/-- Counterexample for claim C2 as stated: in a run where the Step 2 remote
call fails (its Step Result is the empty string) but Step 5 succeeds with a
positive assessment, both orchestrator variants still decide to proceed —
only a failure of Step 5 itself forces the default skip. -/
theorem C2_counterexample :
    (∃ i, i < 5 ∧ isFailureOutcome (cexOracle i) = true) ∧
    llmText (cexOracle 1) = [] ∧
    decisionCli cexOracle = true ∧
    decisionInteractive cexOracle = true :=
  ⟨⟨1, by omega, by decide⟩, by decide, by decide, by decide⟩

/-- Claim C2 (amended): in every run where the remote call of the synthesis
step (Step 5, the step feeding the fit predicate) fails, that step's result
is the empty string, the predicate finds no positive keyword, and both
variants default to skipping the extension steps. -/
theorem C2_step5_failure_skips (o : Oracle)
    (hfail : isFailureOutcome (o 4) = true) :
    step5Output o = [] ∧ decisionCli o = false ∧ decisionInteractive o = false := by
  have h5 : step5Output o = [] := by
    rw [step5Output_eq]
    cases ho : o 4 with
    | success c => rw [ho] at hfail; simp [isFailureOutcome] at hfail
    | noChoices => rfl
    | error m => rfl
  refine ⟨h5, ?_, ?_⟩
  · show proceed_with_generation_cli (step5Output o) = false
    rw [h5]
    decide
  · show proceed_with_generation_interactive (step5Output o) = false
    rw [h5]
    decide

/-- Witness for C2 (amended): a run in which every call fails skips the
extension in both variants. -/
theorem C2_step5_failure_skips_witness :
    step5Output allFailOracle = [] ∧ decisionCli allFailOracle = false ∧
    decisionInteractive allFailOracle = false :=
  C2_step5_failure_skips allFailOracle (by decide)

/-! ### Claim C5: the fit predicate is monotonic in its keyword set -/

/-- Claim C5: for every Step 5 text and keyword sets `K ⊆ Kbig`, if the fit
predicate with `K` decides to proceed then the predicate with `Kbig` also
decides to proceed — in both orchestrator variants. -/
theorem C5_keyword_monotone (K Kbig : List (List Char)) (step5Raw : List Char)
    (hsub : K ⊆ Kbig) :
    (proceedCliWith K step5Raw = true → proceedCliWith Kbig step5Raw = true) ∧
    (proceedInteractiveWith K step5Raw = true →
      proceedInteractiveWith Kbig step5Raw = true) := by
  constructor
  · intro h
    rw [proceedCliWith, Bool.and_eq_true] at h ⊢
    exact ⟨anyKeywordIn_mono hsub h.1, h.2⟩
  · intro h
    rw [proceedInteractiveWith] at h ⊢
    by_cases hm : containsSub markerPhrase (lowerL step5Raw) = true
    · rw [if_pos hm] at h ⊢
      exact anyKeywordIn_mono hsub h
    · rw [if_neg hm] at h ⊢
      exact anyKeywordIn_mono hsub h

/-- Witness for C5: enlarging the one-phrase set `{"strong fit"}` to the
scripts' full keyword sets preserves a proceed decision. -/
theorem C5_keyword_monotone_witness :
    proceedCliWith positiveFitKeywordsCli
      ("Overall fit assessment: strong fit".toList) = true ∧
    proceedInteractiveWith positiveFitKeywordsInteractive
      ("strong fit".toList) = true :=
  ⟨(C5_keyword_monotone smallKeywordSet positiveFitKeywordsCli
      ("Overall fit assessment: strong fit".toList)
      (by intro a ha; simp only [smallKeywordSet, List.mem_singleton] at ha
          subst ha; decide)).1 (by decide),
   (C5_keyword_monotone smallKeywordSet positiveFitKeywordsInteractive
      ("strong fit".toList)
      (by intro a ha; simp only [smallKeywordSet, List.mem_singleton] at ha
          subst ha; decide)).2 (by decide)⟩

/-! ### Claim C9: the branch decision is invariant under ASCII case changes -/

/-- Claim C9: two Step 5 outputs that are equal up to ASCII letter case (that
is, equal after character-wise lowercasing) produce the same proceed/skip
decision in both orchestrator variants, because each variant lowercases the
output before every substring test. -/
theorem C9_case_invariant (s t : List Char) (h : lowerL s = lowerL t) :
    proceed_with_generation_cli s = proceed_with_generation_cli t ∧
    proceed_with_generation_interactive s = proceed_with_generation_interactive t := by
  constructor
  · simp only [proceed_with_generation_cli, proceedCliWith, h]
  · simp only [proceed_with_generation_interactive, proceedInteractiveWith, h]

/-- Witness for C9: an upper-case and a lower-case rendering of the same
assessment line get the same decisions. -/
theorem C9_case_invariant_witness :
    proceed_with_generation_cli ("OVERALL FIT ASSESSMENT: STRONG FIT".toList) =
      proceed_with_generation_cli ("overall fit assessment: strong fit".toList) ∧
    proceed_with_generation_interactive ("OVERALL FIT ASSESSMENT: STRONG FIT".toList) =
      proceed_with_generation_interactive ("overall fit assessment: strong fit".toList) :=
  C9_case_invariant ("OVERALL FIT ASSESSMENT: STRONG FIT".toList)
    ("overall fit assessment: strong fit".toList) (by decide)

/-! ### Claim C10: the step-results map holds only the six fixed keys -/

/-- Claim C10: at the end of every run (and hence, since the map only grows,
at every point of every run) the step-results dictionary's keys are exactly
the five core step names plus, when the branch proceeded, the deep-dive key;
the Step 6 and Step 7 outputs are never stored, so every key belongs to the
fixed six-element set. -/
theorem C10_step_keys (o : Oracle) :
    ((stepResultsFinalCli o).map Prod.fst =
      coreStepNames ++ (if decisionCli o then [deepDiveStepName] else [])) ∧
    ((stepResultsFinalInteractive o).map Prod.fst =
      coreStepNames ++ (if decisionInteractive o then [deepDiveStepName] else [])) ∧
    ((stepResultsFinalCli o).map Prod.fst).all
      (fun k => allowedStepKeys.contains k) = true ∧
    ((stepResultsFinalInteractive o).map Prod.fst).all
      (fun k => allowedStepKeys.contains k) = true := by
  refine ⟨?_, ?_, ?_, ?_⟩
  · cases hc : decisionCli o <;>
      simp [stepResultsFinalCli, hc, runCoreSteps, coreStepNames, deepDiveStepName]
  · cases hi : decisionInteractive o <;>
      simp [stepResultsFinalInteractive, hi, runCoreSteps, coreStepNames, deepDiveStepName]
  · cases hc : decisionCli o <;>
      simp [stepResultsFinalCli, hc, runCoreSteps, coreStepNames, deepDiveStepName,
        allowedStepKeys]
  · cases hi : decisionInteractive o <;>
      simp [stepResultsFinalInteractive, hi, runCoreSteps, coreStepNames, deepDiveStepName,
        allowedStepKeys]

end JobAnalyzer
